import Mathlib

/-!
Shallow embedding of the quaternion core of the mathfu repository, over the
real numbers (the ideal-arithmetic model of the floating-point code), together
with theorems settling the specification claims.

The repository snapshot contains only the unit-test source
`Unittests/Quaternions/QuaternionTests.cpp`; the quaternion implementation
header (`vectors/Quaternion.h`) is not part of the snapshot.  Every operation
of the quaternion type is therefore modelled from the specification
(spec.md sections 3, 4.1-4.5), while the rotation matrices and concrete inputs
used by the claims are taken verbatim from the test source.
-/

namespace Mathfu

/-- Modelled from the spec (section 3): `Vector<T,3>`, an ordered triple of
scalars with indexed access.  Components are real numbers. -/
structure Vec3 where
  x : ℝ
  y : ℝ
  z : ℝ

/-- Dot product of two 3-vectors (spec section 6: required capability of the
external vector type). -/
def vdot (u v : Vec3) : ℝ := u.x * v.x + u.y * v.y + u.z * v.z

/-- Squared Euclidean norm of a 3-vector. -/
def vnormSq (v : Vec3) : ℝ := vdot v v

/-- Modelled from the spec (section 3): `Quaternion<T>`, four scalar
components ordered as (x, y, z, w) with (x,y,z) the imaginary part and w the
real part. -/
structure Quat where
  x : ℝ
  y : ℝ
  z : ℝ
  w : ℝ

/-- Squared norm of a quaternion. -/
def normSq (q : Quat) : ℝ := q.x ^ 2 + q.y ^ 2 + q.z ^ 2 + q.w ^ 2

/-- Componentwise dot product of two quaternions (spec section 4.5: "cosine of
the angle between them via dot product of components"). -/
def qdot (p q : Quat) : ℝ := p.x * q.x + p.y * q.y + p.z * q.z + p.w * q.w

/-- Componentwise negation; `q` and `negQ q` represent the same rotation
(spec section 3, double cover). -/
def negQ (q : Quat) : Quat := ⟨-q.x, -q.y, -q.z, -q.w⟩

/-- Modelled from the spec (section 4.1): Hamilton product of two
quaternions. -/
def quatMul (p q : Quat) : Quat :=
  ⟨p.w * q.x + p.x * q.w + p.y * q.z - p.z * q.y,
   p.w * q.y + p.y * q.w + p.z * q.x - p.x * q.z,
   p.w * q.z + p.z * q.w + p.x * q.y - p.y * q.x,
   p.w * q.w - p.x * q.x - p.y * q.y - p.z * q.z⟩

/-- Conjugate of a quaternion: negate the imaginary part (spec section 4.1). -/
def conjQ (q : Quat) : Quat := ⟨-q.x, -q.y, -q.z, q.w⟩

/-- Modelled from the spec (section 4.1): `Inverse` is the conjugate divided
by the squared norm (which reduces to the conjugate for unit quaternions). -/
noncomputable def Inverse (q : Quat) : Quat :=
  ⟨-q.x / normSq q, -q.y / normSq q, -q.z / normSq q, q.w / normSq q⟩

/-- Modelled from the spec (section 4.1): `Normalize`, scaling all four
components by the reciprocal norm. -/
noncomputable def Normalize (q : Quat) : Quat :=
  ⟨q.x / Real.sqrt (normSq q), q.y / Real.sqrt (normSq q),
   q.z / Real.sqrt (normSq q), q.w / Real.sqrt (normSq q)⟩

/-- Modelled from the spec (section 4.3): `FromAngleAxis(angle, axis)` builds
the quaternion `(axis * sin(angle/2), cos(angle/2))`. -/
noncomputable def FromAngleAxis (angle : ℝ) (axis : Vec3) : Quat :=
  ⟨axis.x * Real.sin (angle / 2), axis.y * Real.sin (angle / 2),
   axis.z * Real.sin (angle / 2), Real.cos (angle / 2)⟩

/-- Clamp a scalar into [-1, 1]; the spec (sections 4.3, 7) requires the acos
argument in `ToAngleAxis` to be clamped to its valid domain. -/
def clamp1 (t : ℝ) : ℝ := max (-1) (min 1 t)

/-- Modelled from the spec (section 4.3): `ToAngleAxis` recovers
`angle = 2*acos(w)` (with the acos argument clamped to [-1,1]) and the axis as
the normalized imaginary part; when the imaginary part vanishes (zero rotation
angle) the axis is special-cased to a fixed default axis instead of dividing
by a near-zero quantity. -/
noncomputable def ToAngleAxis (q : Quat) : ℝ × Vec3 :=
  let angle := 2 * Real.arccos (clamp1 q.w)
  let n := Real.sqrt (q.x ^ 2 + q.y ^ 2 + q.z ^ 2)
  if n = 0 then (angle, ⟨1, 0, 0⟩)
  else (angle, ⟨q.x / n, q.y / n, q.z / n⟩)

/-- Modelled from the spec (section 3): `Matrix<T,3>`, a 3x3 matrix of
scalars.  Field `mij` is the entry in row i, column j (the C++ type stores the
entries column-major, so its flat index k corresponds to row k % 3,
column k / 3). -/
structure Mat3 where
  m00 : ℝ
  m01 : ℝ
  m02 : ℝ
  m10 : ℝ
  m11 : ℝ
  m12 : ℝ
  m20 : ℝ
  m21 : ℝ
  m22 : ℝ

/-- Matrix-matrix product (spec section 6: required capability of the external
matrix type). -/
def matMul (a b : Mat3) : Mat3 :=
  ⟨a.m00 * b.m00 + a.m01 * b.m10 + a.m02 * b.m20,
   a.m00 * b.m01 + a.m01 * b.m11 + a.m02 * b.m21,
   a.m00 * b.m02 + a.m01 * b.m12 + a.m02 * b.m22,
   a.m10 * b.m00 + a.m11 * b.m10 + a.m12 * b.m20,
   a.m10 * b.m01 + a.m11 * b.m11 + a.m12 * b.m21,
   a.m10 * b.m02 + a.m11 * b.m12 + a.m12 * b.m22,
   a.m20 * b.m00 + a.m21 * b.m10 + a.m22 * b.m20,
   a.m20 * b.m01 + a.m21 * b.m11 + a.m22 * b.m21,
   a.m20 * b.m02 + a.m21 * b.m12 + a.m22 * b.m22⟩

/-- Matrix-vector product (spec section 6: required capability of the external
matrix type). -/
def matVecMul (a : Mat3) (v : Vec3) : Vec3 :=
  ⟨a.m00 * v.x + a.m01 * v.y + a.m02 * v.z,
   a.m10 * v.x + a.m11 * v.y + a.m12 * v.z,
   a.m20 * v.x + a.m21 * v.y + a.m22 * v.z⟩

/-- Modelled from the spec (section 4.4): `ToMatrix`, the standard
quaternion-to-rotation-matrix formula, producing the matrix whose action on
vectors matches quaternion-vector rotation. -/
def ToMatrix (q : Quat) : Mat3 :=
  ⟨1 - 2 * (q.y ^ 2 + q.z ^ 2), 2 * (q.x * q.y - q.z * q.w),
   2 * (q.x * q.z + q.y * q.w),
   2 * (q.x * q.y + q.z * q.w), 1 - 2 * (q.x ^ 2 + q.z ^ 2),
   2 * (q.y * q.z - q.x * q.w),
   2 * (q.x * q.z - q.y * q.w), 2 * (q.y * q.z + q.x * q.w),
   1 - 2 * (q.x ^ 2 + q.y ^ 2)⟩

/-- Modelled from the spec (section 4.4): `FromMatrix`, the standard
trace-based matrix-to-quaternion extraction; when the trace is not positive it
pivots on the largest diagonal element so the square root and the division
stay away from zero. -/
noncomputable def FromMatrix (m : Mat3) : Quat :=
  let tr := m.m00 + m.m11 + m.m22
  if 0 < tr then
    let s := Real.sqrt (tr + 1) * 2
    ⟨(m.m21 - m.m12) / s, (m.m02 - m.m20) / s, (m.m10 - m.m01) / s, s / 4⟩
  else if m.m11 < m.m00 ∧ m.m22 < m.m00 then
    let s := Real.sqrt (1 + m.m00 - m.m11 - m.m22) * 2
    ⟨s / 4, (m.m01 + m.m10) / s, (m.m02 + m.m20) / s, (m.m21 - m.m12) / s⟩
  else if m.m22 < m.m11 then
    let s := Real.sqrt (1 + m.m11 - m.m00 - m.m22) * 2
    ⟨(m.m01 + m.m10) / s, s / 4, (m.m12 + m.m21) / s, (m.m02 - m.m20) / s⟩
  else
    let s := Real.sqrt (1 + m.m22 - m.m00 - m.m11) * 2
    ⟨(m.m02 + m.m20) / s, (m.m12 + m.m21) / s, s / 4, (m.m10 - m.m01) / s⟩

/-- Modelled from the spec (section 4.2): `FromEulerAngles` combines the three
single-axis half-angle quaternions, here in z-y-x order (the order matching
the composed rotation matrix `rz * ry * rx` built in the test source). -/
noncomputable def FromEulerAngles (angles : Vec3) : Quat :=
  quatMul (FromAngleAxis angles.z ⟨0, 0, 1⟩)
    (quatMul (FromAngleAxis angles.y ⟨0, 1, 0⟩) (FromAngleAxis angles.x ⟨1, 0, 0⟩))

/-- Two-argument arctangent: the angle in (-pi, pi] of the point (x, y),
realized as the complex argument. -/
noncomputable def atan2 (y x : ℝ) : ℝ := Complex.arg (x + y * Complex.I)

/-- Modelled from the spec (section 4.2): `ToEulerAngles` recovers an Euler
triple from the rotation matrix of the quaternion, picking the solution whose
middle angle lies in (-pi/2, pi/2); at the gimbal-lock singularity it zeroes
the first angle and resolves the remaining pair consistently. -/
noncomputable def ToEulerAngles (q : Quat) : Vec3 :=
  let m := ToMatrix q
  if m.m00 ^ 2 + m.m10 ^ 2 = 0 then
    ⟨0, if m.m20 < 0 then Real.pi / 2 else -(Real.pi / 2), -atan2 m.m01 m.m11⟩
  else
    ⟨atan2 m.m21 m.m22, atan2 (-m.m20) (Real.sqrt (m.m00 ^ 2 + m.m10 ^ 2)),
     atan2 m.m10 m.m00⟩

/-- Modelled from the spec (sections 4.1, 4.5 contract): quaternion-vector
multiplication rotates the vector: the vector is lifted to a pure-imaginary
quaternion and conjugated, `q * v * Inverse q`, restricted back to the vector
part. -/
noncomputable def quatVecMul (q : Quat) (v : Vec3) : Vec3 :=
  let r := quatMul (quatMul q ⟨v.x, v.y, v.z, 0⟩) (Inverse q)
  ⟨r.x, r.y, r.z⟩

/-- Modelled from the spec (section 4.1): quaternion-scalar multiplication
scales the rotation angle, implemented via the angle/axis relationship:
convert to axis-angle, scale the angle, reconstruct. -/
noncomputable def quatScalarMul (q : Quat) (k : ℝ) : Quat :=
  let aa := ToAngleAxis q
  FromAngleAxis (aa.1 * k) aa.2

/-- Modelled from the spec (section 4.5): `Slerp`.  Compute the dot product;
if negative, negate the second operand (shorter arc); if the operands are
(nearly) identical, fall back to linear interpolation of components followed
by normalization; otherwise use the closed form
`(sin((1-t)*th)*q1 + sin(t*th)*q2) / sin th` with `th = acos(dot)`. -/
noncomputable def Slerp (q1 q2 : Quat) (t : ℝ) : Quat :=
  let d := qdot q1 q2
  let p := if d < 0 then negQ q2 else q2
  let dp := if d < 0 then -d else d
  if 1 ≤ dp then
    Normalize ⟨(1 - t) * q1.x + t * p.x, (1 - t) * q1.y + t * p.y,
               (1 - t) * q1.z + t * p.z, (1 - t) * q1.w + t * p.w⟩
  else
    let th := Real.arccos dp
    ⟨(Real.sin ((1 - t) * th) * q1.x + Real.sin (t * th) * p.x) / Real.sin th,
     (Real.sin ((1 - t) * th) * q1.y + Real.sin (t * th) * p.y) / Real.sin th,
     (Real.sin ((1 - t) * th) * q1.z + Real.sin (t * th) * p.z) / Real.sin th,
     (Real.sin ((1 - t) * th) * q1.w + Real.sin (t * th) * p.w) / Real.sin th⟩

/-- Single-axis rotation matrix about x, exactly as built by the test source
(`Conversion_Test`: `rx(1, 0, 0, 0, cos, sin, 0, -sin, cos)` with the
column-major constructor). -/
noncomputable def rotX (a : ℝ) : Mat3 :=
  ⟨1, 0, 0, 0, Real.cos a, -Real.sin a, 0, Real.sin a, Real.cos a⟩

/-- Single-axis rotation matrix about y, exactly as built by the test source
(`ry(cos, 0, -sin, 0, 1, 0, sin, 0, cos)` with the column-major
constructor). -/
noncomputable def rotY (a : ℝ) : Mat3 :=
  ⟨Real.cos a, 0, Real.sin a, 0, 1, 0, -Real.sin a, 0, Real.cos a⟩

/-- Single-axis rotation matrix about z, exactly as built by the test source
(`rz(cos, sin, 0, -sin, cos, 0, 0, 0, 1)` with the column-major
constructor). -/
noncomputable def rotZ (a : ℝ) : Mat3 :=
  ⟨Real.cos a, -Real.sin a, 0, Real.sin a, Real.cos a, 0, 0, 0, 1⟩

/-- Composed rotation matrix `rz * ry * rx` exactly as built by the test
source (`Conversion_Test`, line 72: `Matrix<T,3> m(rz * ry * rx)`). -/
noncomputable def composedRotation (a0 a1 a2 : ℝ) : Mat3 :=
  matMul (matMul (rotZ a2) (rotY a1)) (rotX a0)

/-! ### Helper lemmas: axis-angle conversions -/

/-- A quaternion built from a unit axis is a unit quaternion. -/
theorem normSq_fromAngleAxis {u : Vec3} (hu : vnormSq u = 1) (a : ℝ) :
    normSq (FromAngleAxis a u) = 1 := by
  have hsum : u.x ^ 2 + u.y ^ 2 + u.z ^ 2 = 1 := by
    simpa [vnormSq, vdot, sq] using hu
  have hsc : Real.sin (a / 2) ^ 2 + Real.cos (a / 2) ^ 2 = 1 :=
    Real.sin_sq_add_cos_sq (a / 2)
  simp only [normSq, FromAngleAxis]
  linear_combination Real.sin (a / 2) ^ 2 * hsum + hsc

/-- Converting a quaternion built from a unit axis and an angle in (0, 2*pi)
back to axis-angle recovers exactly that angle and axis. -/
theorem toAngleAxis_fromAngleAxis {u : Vec3} (hu : vnormSq u = 1) {a : ℝ}
    (ha0 : 0 < a) (ha2 : a < 2 * Real.pi) :
    ToAngleAxis (FromAngleAxis a u) = (a, u) := by
  obtain ⟨ux, uy, uz⟩ := u
  have hsum : ux ^ 2 + uy ^ 2 + uz ^ 2 = 1 := by
    simpa [vnormSq, vdot, sq] using hu
  have hs : 0 < Real.sin (a / 2) :=
    Real.sin_pos_of_pos_of_lt_pi (by linarith) (by linarith)
  have hn : Real.sqrt ((ux * Real.sin (a / 2)) ^ 2 + (uy * Real.sin (a / 2)) ^ 2 +
      (uz * Real.sin (a / 2)) ^ 2) = Real.sin (a / 2) := by
    have : (ux * Real.sin (a / 2)) ^ 2 + (uy * Real.sin (a / 2)) ^ 2 +
        (uz * Real.sin (a / 2)) ^ 2 = Real.sin (a / 2) ^ 2 := by
      linear_combination Real.sin (a / 2) ^ 2 * hsum
    rw [this]
    exact Real.sqrt_sq hs.le
  have hclamp : clamp1 (Real.cos (a / 2)) = Real.cos (a / 2) := by
    unfold clamp1
    rw [min_eq_right (Real.cos_le_one _), max_eq_right (Real.neg_one_le_cos _)]
  have harc : Real.arccos (Real.cos (a / 2)) = a / 2 :=
    Real.arccos_cos (by linarith) (by linarith)
  simp only [ToAngleAxis, FromAngleAxis, hn, hclamp, harc]
  rw [if_neg hs.ne']
  have hdiv : ∀ c : ℝ, c * Real.sin (a / 2) / Real.sin (a / 2) = c := fun c =>
    mul_div_cancel_right₀ c hs.ne'
  rw [hdiv, hdiv, hdiv]
  have h2 : 2 * (a / 2) = a := by ring
  rw [h2]

/-- Hamilton product of two quaternions sharing a unit axis: the angles
add. -/
theorem fromAngleAxis_mul {u : Vec3} (hu : vnormSq u = 1) (a b : ℝ) :
    quatMul (FromAngleAxis a u) (FromAngleAxis b u) = FromAngleAxis (a + b) u := by
  obtain ⟨ux, uy, uz⟩ := u
  have hsum : ux ^ 2 + uy ^ 2 + uz ^ 2 = 1 := by
    simpa [vnormSq, vdot, sq] using hu
  have hhalf : (a + b) / 2 = a / 2 + b / 2 := by ring
  simp only [quatMul, FromAngleAxis, hhalf, Real.sin_add, Real.cos_add,
    Quat.mk.injEq]
  refine ⟨by ring, by ring, by ring, ?_⟩
  linear_combination (-(Real.sin (a / 2) * Real.sin (b / 2))) * hsum

/-- Evaluation of the axis-angle round trip at the out-of-range angle 3*pi:
the recovered angle is pi, not 3*pi (the quaternion built at 3*pi equals the
one built at pi up to sign, and the conversion returns the principal
angle). -/
theorem toAngleAxis_fromAngleAxis_three_pi :
    (ToAngleAxis (FromAngleAxis (3 * Real.pi) ⟨1, 0, 0⟩)).1 = Real.pi := by
  have hfa : FromAngleAxis (3 * Real.pi) (⟨1, 0, 0⟩ : Vec3) = ⟨-1, 0, 0, 0⟩ := by
    simp only [FromAngleAxis]
    have h1 : 3 * Real.pi / 2 = Real.pi / 2 + Real.pi := by ring
    rw [h1]
    simp [Real.sin_add, Real.cos_add]
  rw [hfa]
  simp only [ToAngleAxis]
  norm_num [clamp1, Real.arccos_zero]
  ring

/-! ### Claim C3: axis-angle round trip -/

/-- Claim C3 (amended): for every angle in the principal range (0, 2*pi) and
every unit axis, `ToAngleAxis(FromAngleAxis(angle, axis))` reproduces the pair
(angle, axis) exactly. -/
theorem claim_C3_thm (angle : ℝ) (axis : Vec3) (hu : vnormSq axis = 1)
    (h0 : 0 < angle) (h2 : angle < 2 * Real.pi) :
    ToAngleAxis (FromAngleAxis angle axis) = (angle, axis) :=
  toAngleAxis_fromAngleAxis hu h0 h2

/-- Witness for claim C3 at angle pi and axis (1,0,0). -/
theorem claim_C3_wit :
    vnormSq ⟨1, 0, 0⟩ = 1 ∧ 0 < Real.pi ∧ Real.pi < 2 * Real.pi ∧
    ToAngleAxis (FromAngleAxis Real.pi ⟨1, 0, 0⟩) = (Real.pi, ⟨1, 0, 0⟩) :=
  ⟨by norm_num [vnormSq, vdot], Real.pi_pos, by linarith [Real.pi_pos],
   claim_C3_thm Real.pi ⟨1, 0, 0⟩ (by norm_num [vnormSq, vdot]) Real.pi_pos
     (by linarith [Real.pi_pos])⟩

/-- Counterexample to claim C3 as stated: the angle 3*pi is away from 0 and
the axis (1,0,0) is a unit vector, yet the round trip returns the angle pi,
not 3*pi. -/
theorem claim_C3_cex :
    (ToAngleAxis (FromAngleAxis (3 * Real.pi) ⟨1, 0, 0⟩)).1 ≠ 3 * Real.pi := by
  rw [toAngleAxis_fromAngleAxis_three_pi]
  intro h
  nlinarith [Real.pi_pos]

/-! ### Claim C6: same-axis composition law -/

/-- Claim C6 (amended): for a unit axis and angles whose sum lies in the
principal range (0, 2*pi), the Hamilton product of the two quaternions built
from that axis decomposes to the angle a1 + a2 on that same axis. -/
theorem claim_C6_thm (a1 a2 : ℝ) (u : Vec3) (hu : vnormSq u = 1)
    (h0 : 0 < a1 + a2) (h2 : a1 + a2 < 2 * Real.pi) :
    ToAngleAxis (quatMul (FromAngleAxis a1 u) (FromAngleAxis a2 u)) = (a1 + a2, u) := by
  rw [fromAngleAxis_mul hu]
  exact toAngleAxis_fromAngleAxis hu h0 h2

/-- Witness for claim C6 at angles pi/2, pi/2 and axis (1,0,0). -/
theorem claim_C6_wit :
    vnormSq ⟨1, 0, 0⟩ = 1 ∧ 0 < Real.pi / 2 + Real.pi / 2 ∧
    Real.pi / 2 + Real.pi / 2 < 2 * Real.pi ∧
    ToAngleAxis (quatMul (FromAngleAxis (Real.pi / 2) ⟨1, 0, 0⟩)
      (FromAngleAxis (Real.pi / 2) ⟨1, 0, 0⟩)) = (Real.pi / 2 + Real.pi / 2, ⟨1, 0, 0⟩) :=
  ⟨by norm_num [vnormSq, vdot], by linarith [Real.pi_pos], by linarith [Real.pi_pos],
   claim_C6_thm (Real.pi / 2) (Real.pi / 2) ⟨1, 0, 0⟩ (by norm_num [vnormSq, vdot])
     (by linarith [Real.pi_pos]) (by linarith [Real.pi_pos])⟩

/-- Counterexample to claim C6 as stated: for angles 3*pi/2 and 3*pi/2 on the
unit axis (1,0,0), the product decomposes to the angle pi, not
3*pi/2 + 3*pi/2 = 3*pi. -/
theorem claim_C6_cex :
    (ToAngleAxis (quatMul (FromAngleAxis (3 * Real.pi / 2) ⟨1, 0, 0⟩)
      (FromAngleAxis (3 * Real.pi / 2) ⟨1, 0, 0⟩))).1 ≠ 3 * Real.pi / 2 + 3 * Real.pi / 2 := by
  rw [fromAngleAxis_mul (by norm_num [vnormSq, vdot])]
  have h3 : 3 * Real.pi / 2 + 3 * Real.pi / 2 = 3 * Real.pi := by ring
  rw [h3, toAngleAxis_fromAngleAxis_three_pi]
  intro h
  nlinarith [Real.pi_pos]

/-! ### Claim C7: scalar multiplication scales the angle -/

/-- Claim C7 (amended): for a quaternion built from a unit axis at an angle in
(0, 2*pi) and a scalar k with the scaled angle also in (0, 2*pi), the scalar
product decomposes to the original axis with the angle multiplied by k. -/
theorem claim_C7_thm (a k : ℝ) (u : Vec3) (hu : vnormSq u = 1)
    (ha0 : 0 < a) (ha2 : a < 2 * Real.pi)
    (hk0 : 0 < a * k) (hk2 : a * k < 2 * Real.pi) :
    ToAngleAxis (quatScalarMul (FromAngleAxis a u) k) = (a * k, u) := by
  unfold quatScalarMul
  rw [toAngleAxis_fromAngleAxis hu ha0 ha2]
  exact toAngleAxis_fromAngleAxis hu hk0 hk2

/-- Witness for claim C7 at angle pi/2, scalar 2 and axis (1,0,0). -/
theorem claim_C7_wit :
    vnormSq ⟨1, 0, 0⟩ = 1 ∧ 0 < Real.pi / 2 ∧ Real.pi / 2 < 2 * Real.pi ∧
    0 < Real.pi / 2 * 2 ∧ Real.pi / 2 * 2 < 2 * Real.pi ∧
    ToAngleAxis (quatScalarMul (FromAngleAxis (Real.pi / 2) ⟨1, 0, 0⟩) 2) =
      (Real.pi / 2 * 2, ⟨1, 0, 0⟩) :=
  ⟨by norm_num [vnormSq, vdot], by linarith [Real.pi_pos], by linarith [Real.pi_pos],
   by linarith [Real.pi_pos], by linarith [Real.pi_pos],
   claim_C7_thm (Real.pi / 2) 2 ⟨1, 0, 0⟩ (by norm_num [vnormSq, vdot])
     (by linarith [Real.pi_pos]) (by linarith [Real.pi_pos])
     (by linarith [Real.pi_pos]) (by linarith [Real.pi_pos])⟩

/-- Counterexample to claim C7 as stated: the unit quaternion built from the
angle pi/2 on the axis (1,0,0), scaled by k = 6, decomposes to the angle pi,
not (pi/2) * 6 = 3*pi. -/
theorem claim_C7_cex :
    (ToAngleAxis (quatScalarMul (FromAngleAxis (Real.pi / 2) ⟨1, 0, 0⟩) 6)).1 ≠
      Real.pi / 2 * 6 := by
  have haa : ToAngleAxis (FromAngleAxis (Real.pi / 2) (⟨1, 0, 0⟩ : Vec3)) =
      (Real.pi / 2, ⟨1, 0, 0⟩) :=
    toAngleAxis_fromAngleAxis (by norm_num [vnormSq, vdot])
      (by linarith [Real.pi_pos]) (by linarith [Real.pi_pos])
  unfold quatScalarMul
  rw [haa]
  show (ToAngleAxis (FromAngleAxis (Real.pi / 2 * 6) ⟨1, 0, 0⟩)).1 ≠ Real.pi / 2 * 6
  have h6 : (Real.pi / 2 * 6 : ℝ) = 3 * Real.pi := by ring
  rw [h6, toAngleAxis_fromAngleAxis_three_pi]
  intro h
  nlinarith [Real.pi_pos]

/-! ### Claim C9: ToAngleAxis is everywhere well defined -/

/-- The recovered angle is `2 * acos(clamped w)` in both branches of
`ToAngleAxis`. -/
theorem toAngleAxis_fst (q : Quat) :
    (ToAngleAxis q).1 = 2 * Real.arccos (clamp1 q.w) := by
  simp only [ToAngleAxis]
  by_cases h : Real.sqrt (q.x ^ 2 + q.y ^ 2 + q.z ^ 2) = 0
  · rw [if_pos h]
  · rw [if_neg h]

/-- The recovered axis is a unit vector in both branches of `ToAngleAxis`:
the fixed fallback axis when the imaginary part vanishes, the normalized
imaginary part otherwise. -/
theorem toAngleAxis_snd_unit (q : Quat) : vnormSq (ToAngleAxis q).2 = 1 := by
  simp only [ToAngleAxis]
  by_cases h : Real.sqrt (q.x ^ 2 + q.y ^ 2 + q.z ^ 2) = 0
  · rw [if_pos h]
    norm_num [vnormSq, vdot]
  · rw [if_neg h]
    have hnn : (0 : ℝ) ≤ q.x ^ 2 + q.y ^ 2 + q.z ^ 2 := by positivity
    have hsq : Real.sqrt (q.x ^ 2 + q.y ^ 2 + q.z ^ 2) *
        Real.sqrt (q.x ^ 2 + q.y ^ 2 + q.z ^ 2) = q.x ^ 2 + q.y ^ 2 + q.z ^ 2 :=
      Real.mul_self_sqrt hnn
    have hSne : q.x ^ 2 + q.y ^ 2 + q.z ^ 2 ≠ 0 := by
      intro h0
      exact h (by rw [h0, Real.sqrt_zero])
    simp only [vnormSq, vdot, div_mul_div_comm, hsq]
    rw [div_add_div_same, div_add_div_same, div_eq_one_iff_eq hSne]
    ring

/-- Claim C9: `ToAngleAxis` is everywhere well defined in the ideal model:
the acos argument is clamped into [-1, 1], the recovered angle lies in
[0, 2*pi], and the recovered axis is always a unit vector (the fallback axis
when the rotation angle is zero), for every input quaternion. -/
theorem claim_C9_thm (q : Quat) :
    -1 ≤ clamp1 q.w ∧ clamp1 q.w ≤ 1 ∧
    0 ≤ (ToAngleAxis q).1 ∧ (ToAngleAxis q).1 ≤ 2 * Real.pi ∧
    vnormSq (ToAngleAxis q).2 = 1 := by
  have harc1 : 0 ≤ Real.arccos (clamp1 q.w) := Real.arccos_nonneg _
  have harc2 : Real.arccos (clamp1 q.w) ≤ Real.pi := Real.arccos_le_pi _
  refine ⟨le_max_left _ _, max_le (by norm_num) (min_le_left _ _), ?_, ?_,
    toAngleAxis_snd_unit q⟩
  · rw [toAngleAxis_fst]
    linarith
  · rw [toAngleAxis_fst]
    linarith

/-! ### Claim C5: inverse composes to the identity rotation -/

/-- For a non-zero quaternion, `Inverse(q) * q` is exactly the identity
quaternion. -/
theorem inverse_mul_self {q : Quat} (h : normSq q ≠ 0) :
    quatMul (Inverse q) q = ⟨0, 0, 0, 1⟩ := by
  obtain ⟨qx, qy, qz, qw⟩ := q
  have hn : qx ^ 2 + qy ^ 2 + qz ^ 2 + qw ^ 2 ≠ 0 := by
    simpa [normSq] using h
  simp only [quatMul, Inverse, normSq, Quat.mk.injEq]
  refine ⟨?_, ?_, ?_, ?_⟩ <;> field_simp <;> ring

/-- The argument of the point (1, 0) is zero. -/
theorem atan2_zero_one : atan2 0 1 = 0 := by
  unfold atan2
  norm_num [Complex.arg_one]

/-- The identity quaternion decomposes to the zero Euler triple. -/
theorem toEulerAngles_identity : ToEulerAngles ⟨0, 0, 0, 1⟩ = ⟨0, 0, 0⟩ := by
  have hm : ToMatrix ⟨0, 0, 0, 1⟩ = ⟨1, 0, 0, 0, 1, 0, 0, 0, 1⟩ := by
    simp only [ToMatrix]
    norm_num
  simp only [ToEulerAngles, hm]
  norm_num [atan2_zero_one]

/-- Claim C5: for every non-zero quaternion (unit or not), the Euler
decomposition of `Inverse(q) * q` is exactly (0, 0, 0). -/
theorem claim_C5_thm (q : Quat) (h : normSq q ≠ 0) :
    ToEulerAngles (quatMul (Inverse q) q) = ⟨0, 0, 0⟩ := by
  rw [inverse_mul_self h, toEulerAngles_identity]

/-- Witness for claim C5 at the non-unit quaternion of the test source,
`q(1.4, 6.3, 8.5, 5.9)` (scalar part first in the C++ constructor, hence
x = 6.3, y = 8.5, z = 5.9, w = 1.4). -/
theorem claim_C5_wit :
    normSq ⟨6.3, 8.5, 5.9, 1.4⟩ ≠ 0 ∧
    ToEulerAngles (quatMul (Inverse ⟨6.3, 8.5, 5.9, 1.4⟩) ⟨6.3, 8.5, 5.9, 1.4⟩) =
      ⟨0, 0, 0⟩ :=
  ⟨by norm_num [normSq], claim_C5_thm ⟨6.3, 8.5, 5.9, 1.4⟩ (by norm_num [normSq])⟩

/-! ### Claim C8: quaternion-vector rotation agrees with the matrix -/

/-- For a unit quaternion the inverse reduces to the conjugate. -/
theorem inverse_of_unit {q : Quat} (h : normSq q = 1) : Inverse q = conjQ q := by
  simp only [Inverse, conjQ, h]
  norm_num

/-- Rotating a vector through the quaternion sandwich product agrees exactly
with multiplying by the rotation matrix, for unit quaternions. -/
theorem rotate_eq_matVecMul {q : Quat} (h : normSq q = 1) (v : Vec3) :
    quatVecMul q v = matVecMul (ToMatrix q) v := by
  unfold quatVecMul
  rw [inverse_of_unit h]
  obtain ⟨qx, qy, qz, qw⟩ := q
  have hn : qx ^ 2 + qy ^ 2 + qz ^ 2 + qw ^ 2 = 1 := by
    simpa [normSq] using h
  simp only [quatMul, conjQ, matVecMul, ToMatrix, Vec3.mk.injEq]
  refine ⟨?_, ?_, ?_⟩
  · linear_combination v.x * hn
  · linear_combination v.y * hn
  · linear_combination v.z * hn

/-- Claim C8: for every unit quaternion and every vector, the
quaternion-vector product equals the matrix-vector product through
`ToMatrix`, componentwise. -/
theorem claim_C8_thm (q : Quat) (v : Vec3) (h : normSq q = 1) :
    quatVecMul q v = matVecMul (ToMatrix q) v :=
  rotate_eq_matVecMul h v

/-- Witness for claim C8 at the unit quaternion built from angle pi/2 about
(1,0,0) and the vector (3.5, 6.4, 7.0) of the test source. -/
theorem claim_C8_wit :
    normSq ⟨Real.sin (Real.pi / 4), 0, 0, Real.cos (Real.pi / 4)⟩ = 1 ∧
    quatVecMul ⟨Real.sin (Real.pi / 4), 0, 0, Real.cos (Real.pi / 4)⟩ ⟨3.5, 6.4, 7.0⟩ =
      matVecMul (ToMatrix ⟨Real.sin (Real.pi / 4), 0, 0, Real.cos (Real.pi / 4)⟩)
        ⟨3.5, 6.4, 7.0⟩ := by
  have hu : normSq ⟨Real.sin (Real.pi / 4), 0, 0, Real.cos (Real.pi / 4)⟩ = 1 := by
    have := Real.sin_sq_add_cos_sq (Real.pi / 4)
    simp only [normSq]
    linarith
  exact ⟨hu, claim_C8_thm _ _ hu⟩

/-! ### Helper lemmas: ToMatrix is multiplicative on unit quaternions -/

/-- The squared norm is multiplicative for the Hamilton product (Euler's
four-square identity). -/
theorem normSq_mul (p q : Quat) : normSq (quatMul p q) = normSq p * normSq q := by
  simp only [normSq, quatMul]
  ring

/-- Rotating by a product of unit quaternions rotates by the right factor
first, then the left factor. -/
theorem rotate_mul {p q : Quat} (hp : normSq p = 1) (hq : normSq q = 1) (v : Vec3) :
    quatVecMul (quatMul p q) v = quatVecMul p (quatVecMul q v) := by
  have hpq : normSq (quatMul p q) = 1 := by
    rw [normSq_mul, hp, hq, one_mul]
  unfold quatVecMul
  rw [inverse_of_unit hpq, inverse_of_unit hp, inverse_of_unit hq]
  obtain ⟨px, py, pz, pw⟩ := p
  obtain ⟨qx, qy, qz, qw⟩ := q
  obtain ⟨vx, vy, vz⟩ := v
  simp only [quatMul, conjQ, Vec3.mk.injEq]
  refine ⟨by ring, by ring, by ring⟩

/-- Matrix-vector multiplication by a product is iterated matrix-vector
multiplication. -/
theorem matVecMul_matMul (a b : Mat3) (v : Vec3) :
    matVecMul (matMul a b) v = matVecMul a (matVecMul b v) := by
  simp only [matVecMul, matMul, Vec3.mk.injEq]
  refine ⟨by ring, by ring, by ring⟩

/-- Matrix multiplication is associative. -/
theorem matMul_assoc (a b c : Mat3) :
    matMul (matMul a b) c = matMul a (matMul b c) := by
  simp only [matMul, Mat3.mk.injEq]
  refine ⟨by ring, by ring, by ring, by ring, by ring, by ring, by ring, by ring, by ring⟩

/-- Two matrices acting identically on all vectors are equal. -/
theorem mat_eq_of_action {A B : Mat3} (h : ∀ v, matVecMul A v = matVecMul B v) :
    A = B := by
  have h1 := h ⟨1, 0, 0⟩
  have h2 := h ⟨0, 1, 0⟩
  have h3 := h ⟨0, 0, 1⟩
  obtain ⟨a00, a01, a02, a10, a11, a12, a20, a21, a22⟩ := A
  obtain ⟨b00, b01, b02, b10, b11, b12, b20, b21, b22⟩ := B
  norm_num [matVecMul, Vec3.mk.injEq] at h1 h2 h3
  simp only [Mat3.mk.injEq]
  exact ⟨h1.1, h2.1, h3.1, h1.2.1, h2.2.1, h3.2.1, h1.2.2, h2.2.2, h3.2.2⟩

/-- On unit quaternions, `ToMatrix` turns the Hamilton product into the
matrix product. -/
theorem toMatrix_mul {p q : Quat} (hp : normSq p = 1) (hq : normSq q = 1) :
    ToMatrix (quatMul p q) = matMul (ToMatrix p) (ToMatrix q) := by
  have hpq : normSq (quatMul p q) = 1 := by
    rw [normSq_mul, hp, hq, one_mul]
  apply mat_eq_of_action
  intro v
  rw [← rotate_eq_matVecMul hpq, rotate_mul hp hq, rotate_eq_matVecMul hq,
    rotate_eq_matVecMul hp, ← matVecMul_matMul]

/-- The quaternion of a rotation about the x axis maps to the single-axis
matrix built by the test source. -/
theorem toMatrix_fromAngleAxis_x (a : ℝ) :
    ToMatrix (FromAngleAxis a ⟨1, 0, 0⟩) = rotX a := by
  have h2 : 2 * (a / 2) = a := by ring
  have hs : Real.sin a = 2 * Real.sin (a / 2) * Real.cos (a / 2) := by
    have := Real.sin_two_mul (a / 2)
    rw [h2] at this
    linarith
  have hc : Real.cos a = 2 * Real.cos (a / 2) ^ 2 - 1 := by
    have := Real.cos_two_mul (a / 2)
    rw [h2] at this
    linarith
  have hp : Real.sin (a / 2) ^ 2 + Real.cos (a / 2) ^ 2 = 1 :=
    Real.sin_sq_add_cos_sq _
  simp only [ToMatrix, FromAngleAxis, rotX, Mat3.mk.injEq]
  refine ⟨by ring, by ring, by ring, by ring, by linear_combination - hc - 2 * hp,
    by linear_combination hs, by ring, by linear_combination - hs,
    by linear_combination - hc - 2 * hp⟩

/-- The quaternion of a rotation about the y axis maps to the single-axis
matrix built by the test source. -/
theorem toMatrix_fromAngleAxis_y (a : ℝ) :
    ToMatrix (FromAngleAxis a ⟨0, 1, 0⟩) = rotY a := by
  have h2 : 2 * (a / 2) = a := by ring
  have hs : Real.sin a = 2 * Real.sin (a / 2) * Real.cos (a / 2) := by
    have := Real.sin_two_mul (a / 2)
    rw [h2] at this
    linarith
  have hc : Real.cos a = 2 * Real.cos (a / 2) ^ 2 - 1 := by
    have := Real.cos_two_mul (a / 2)
    rw [h2] at this
    linarith
  have hp : Real.sin (a / 2) ^ 2 + Real.cos (a / 2) ^ 2 = 1 :=
    Real.sin_sq_add_cos_sq _
  simp only [ToMatrix, FromAngleAxis, rotY, Mat3.mk.injEq]
  refine ⟨by linear_combination - hc - 2 * hp, by ring, by linear_combination - hs,
    by ring, by ring, by ring, by linear_combination hs, by ring,
    by linear_combination - hc - 2 * hp⟩

/-- The quaternion of a rotation about the z axis maps to the single-axis
matrix built by the test source. -/
theorem toMatrix_fromAngleAxis_z (a : ℝ) :
    ToMatrix (FromAngleAxis a ⟨0, 0, 1⟩) = rotZ a := by
  have h2 : 2 * (a / 2) = a := by ring
  have hs : Real.sin a = 2 * Real.sin (a / 2) * Real.cos (a / 2) := by
    have := Real.sin_two_mul (a / 2)
    rw [h2] at this
    linarith
  have hc : Real.cos a = 2 * Real.cos (a / 2) ^ 2 - 1 := by
    have := Real.cos_two_mul (a / 2)
    rw [h2] at this
    linarith
  have hp : Real.sin (a / 2) ^ 2 + Real.cos (a / 2) ^ 2 = 1 :=
    Real.sin_sq_add_cos_sq _
  simp only [ToMatrix, FromAngleAxis, rotZ, Mat3.mk.injEq]
  refine ⟨by linear_combination - hc - 2 * hp, by linear_combination hs, by ring,
    by linear_combination - hs, by linear_combination - hc - 2 * hp, by ring,
    by ring, by ring, by ring⟩

/-- The unit axes used by `FromEulerAngles` are unit vectors. -/
theorem vnormSq_ex : vnormSq ⟨1, 0, 0⟩ = 1 := by norm_num [vnormSq, vdot]

theorem vnormSq_ey : vnormSq ⟨0, 1, 0⟩ = 1 := by norm_num [vnormSq, vdot]

theorem vnormSq_ez : vnormSq ⟨0, 0, 1⟩ = 1 := by norm_num [vnormSq, vdot]

/-- The quaternion built by `FromEulerAngles` is a unit quaternion. -/
theorem normSq_fromEulerAngles (v : Vec3) : normSq (FromEulerAngles v) = 1 := by
  unfold FromEulerAngles
  rw [normSq_mul, normSq_mul, normSq_fromAngleAxis vnormSq_ex,
    normSq_fromAngleAxis vnormSq_ey, normSq_fromAngleAxis vnormSq_ez]
  norm_num

/-- The rotation matrix of the quaternion built from an Euler triple is
exactly the composed matrix `rz * ry * rx` built by the test source. -/
theorem toMatrix_fromEulerAngles (v : Vec3) :
    ToMatrix (FromEulerAngles v) = composedRotation v.x v.y v.z := by
  unfold FromEulerAngles composedRotation
  have h21 : normSq (quatMul (FromAngleAxis v.y ⟨0, 1, 0⟩)
      (FromAngleAxis v.x ⟨1, 0, 0⟩)) = 1 := by
    rw [normSq_mul, normSq_fromAngleAxis vnormSq_ex, normSq_fromAngleAxis vnormSq_ey,
      one_mul]
  rw [toMatrix_mul (normSq_fromAngleAxis vnormSq_ez v.z) h21,
    toMatrix_mul (normSq_fromAngleAxis vnormSq_ey v.y)
      (normSq_fromAngleAxis vnormSq_ex v.x),
    toMatrix_fromAngleAxis_x, toMatrix_fromAngleAxis_y, toMatrix_fromAngleAxis_z,
    matMul_assoc]

/-! ### Helper lemmas: the two-argument arctangent -/

/-- The two-argument arctangent recovers an angle in (-pi, pi] from a point
given in polar form with positive radius. -/
theorem atan2_mul_sin_cos (r t : ℝ) (hr : 0 < r) (ht1 : -Real.pi < t)
    (ht2 : t ≤ Real.pi) : atan2 (r * Real.sin t) (r * Real.cos t) = t := by
  unfold atan2
  have h : ((r * Real.cos t : ℝ) : ℂ) + ((r * Real.sin t : ℝ) : ℂ) * Complex.I =
      (r : ℂ) * (Complex.cos t + Complex.sin t * Complex.I) := by
    push_cast [Complex.ofReal_cos, Complex.ofReal_sin]
    ring
  rw [h, Complex.arg_mul_cos_add_sin_mul_I hr (Set.mem_Ioc.mpr ⟨ht1, ht2⟩)]

/-- Unit-radius special case of `atan2_mul_sin_cos`. -/
theorem atan2_sin_cos (t : ℝ) (ht1 : -Real.pi < t) (ht2 : t ≤ Real.pi) :
    atan2 (Real.sin t) (Real.cos t) = t := by
  have h := atan2_mul_sin_cos 1 t one_pos ht1 ht2
  simpa using h

/-- With a negative radius the two-argument arctangent lands on the opposite
angle: the input angle shifted by pi. -/
theorem atan2_flip (r t : ℝ) (hr : r < 0) (h1 : 0 < t) (h2 : t ≤ 2 * Real.pi) :
    atan2 (r * Real.sin t) (r * Real.cos t) = t - Real.pi := by
  have e1 : r * Real.sin t = -r * Real.sin (t - Real.pi) := by
    rw [Real.sin_sub_pi]
    ring
  have e2 : r * Real.cos t = -r * Real.cos (t - Real.pi) := by
    rw [Real.cos_sub_pi]
    ring
  rw [e1, e2,
    atan2_mul_sin_cos (-r) (t - Real.pi) (by linarith) (by linarith) (by linarith)]

/-- The two-argument arctangent of (sin b, -cos b) is pi - b for b in
[0, 2*pi). -/
theorem atan2_sin_neg_cos (b : ℝ) (h1 : 0 ≤ b) (h2 : b < 2 * Real.pi) :
    atan2 (Real.sin b) (-Real.cos b) = Real.pi - b := by
  have h3 : Real.sin b = Real.sin (Real.pi - b) := (Real.sin_pi_sub b).symm
  have h4 : -Real.cos b = Real.cos (Real.pi - b) := (Real.cos_pi_sub b).symm
  rw [h3, h4, atan2_sin_cos (Real.pi - b) (by linarith) (by linarith)]

/-! ### Helper lemmas: the composed test rotation matrix and the Euler
round trip -/

/-- Explicit trigonometric entries of the composed matrix `rz * ry * rx`
built by the test source. -/
theorem composedRotation_eq (a b c : ℝ) : composedRotation a b c =
    ⟨Real.cos b * Real.cos c,
     -Real.sin c * Real.cos a + Real.cos c * Real.sin b * Real.sin a,
     Real.sin c * Real.sin a + Real.cos c * Real.sin b * Real.cos a,
     Real.cos b * Real.sin c,
     Real.cos c * Real.cos a + Real.sin c * Real.sin b * Real.sin a,
     -Real.cos c * Real.sin a + Real.sin c * Real.sin b * Real.cos a,
     -Real.sin b,
     Real.cos b * Real.sin a,
     Real.cos b * Real.cos a⟩ := by
  simp only [composedRotation, matMul, rotX, rotY, rotZ, Mat3.mk.injEq]
  refine ⟨by ring, by ring, by ring, by ring, by ring, by ring, by ring, by ring,
    by ring⟩

/-- Euler round trip, flipped regime: when the middle input angle lies in
(pi/2, 3*pi/2) (so its cosine is negative) and the outer angles lie in
(0, 2*pi], the decomposition returns the equivalent triple
(a - pi, pi - b, c - pi). -/
theorem eulerRoundTrip_flip {a b c : ℝ} (ha0 : 0 < a) (ha2 : a ≤ 2 * Real.pi)
    (hb1 : Real.pi / 2 < b) (hb2 : b < 3 * Real.pi / 2)
    (hc0 : 0 < c) (hc2 : c ≤ 2 * Real.pi) :
    ToEulerAngles (FromEulerAngles ⟨a, b, c⟩) =
      ⟨a - Real.pi, Real.pi - b, c - Real.pi⟩ := by
  have hpi := Real.pi_pos
  have hcb : Real.cos b < 0 :=
    Real.cos_neg_of_pi_div_two_lt_of_lt hb1 (by linarith)
  have hm := toMatrix_fromEulerAngles ⟨a, b, c⟩
  simp only at hm
  have hpy : Real.sin c ^ 2 + Real.cos c ^ 2 = 1 := Real.sin_sq_add_cos_sq c
  have hcos2 : (Real.cos b * Real.cos c) ^ 2 + (Real.cos b * Real.sin c) ^ 2 =
      Real.cos b ^ 2 := by
    linear_combination Real.cos b ^ 2 * hpy
  have hcond : (Real.cos b * Real.cos c) ^ 2 + (Real.cos b * Real.sin c) ^ 2 ≠ 0 := by
    rw [hcos2]
    exact pow_ne_zero 2 hcb.ne
  have hsqrt : Real.sqrt ((Real.cos b * Real.cos c) ^ 2 +
      (Real.cos b * Real.sin c) ^ 2) = -Real.cos b := by
    rw [hcos2, Real.sqrt_sq_eq_abs, abs_of_neg hcb]
  simp only [ToEulerAngles, hm, composedRotation_eq]
  rw [if_neg hcond, hsqrt, neg_neg,
    atan2_sin_neg_cos b (by linarith) (by linarith),
    atan2_flip (Real.cos b) a hcb ha0 ha2,
    atan2_flip (Real.cos b) c hcb hc0 hc2]

/-- Euler round trip, exact regime: when the middle input angle lies in
(-pi/2, pi/2) (so its cosine is positive) and the outer angles lie in
(-pi, pi], the decomposition reproduces the input triple exactly. -/
theorem eulerRoundTrip_exact {a b c : ℝ} (ha1 : -Real.pi < a) (ha2 : a ≤ Real.pi)
    (hb1 : -(Real.pi / 2) < b) (hb2 : b < Real.pi / 2)
    (hc1 : -Real.pi < c) (hc2 : c ≤ Real.pi) :
    ToEulerAngles (FromEulerAngles ⟨a, b, c⟩) = ⟨a, b, c⟩ := by
  have hpi := Real.pi_pos
  have hcb : 0 < Real.cos b := Real.cos_pos_of_mem_Ioo ⟨hb1, hb2⟩
  have hm := toMatrix_fromEulerAngles ⟨a, b, c⟩
  simp only at hm
  have hpy : Real.sin c ^ 2 + Real.cos c ^ 2 = 1 := Real.sin_sq_add_cos_sq c
  have hcos2 : (Real.cos b * Real.cos c) ^ 2 + (Real.cos b * Real.sin c) ^ 2 =
      Real.cos b ^ 2 := by
    linear_combination Real.cos b ^ 2 * hpy
  have hcond : (Real.cos b * Real.cos c) ^ 2 + (Real.cos b * Real.sin c) ^ 2 ≠ 0 := by
    rw [hcos2]
    exact pow_ne_zero 2 hcb.ne'
  have hsqrt : Real.sqrt ((Real.cos b * Real.cos c) ^ 2 +
      (Real.cos b * Real.sin c) ^ 2) = Real.cos b := by
    rw [hcos2, Real.sqrt_sq_eq_abs, abs_of_pos hcb]
  simp only [ToEulerAngles, hm, composedRotation_eq]
  rw [if_neg hcond, hsqrt, neg_neg,
    atan2_sin_cos b (by linarith) (by linarith),
    atan2_mul_sin_cos (Real.cos b) a hcb ha1 ha2,
    atan2_mul_sin_cos (Real.cos b) c hcb hc1 hc2]

/-! ### Claim C2: Euler round trip under the library convention -/

/-- Claim C2 (amended): for Euler triples whose middle angle lies in
(pi/2, 3*pi/2) and whose outer angles lie in (0, 2*pi] (the regime of the
test input (1.5, 2.3, 0.6)), the round trip returns the equivalent triple
related to the input on all three axes: (a.x - pi, pi - a.y, a.z - pi).
For middle angles in (-pi/2, pi/2) the round trip is instead exact. -/
theorem claim_C2_thm (a : Vec3) (ha0 : 0 < a.x) (ha2 : a.x ≤ 2 * Real.pi)
    (hb1 : Real.pi / 2 < a.y) (hb2 : a.y < 3 * Real.pi / 2)
    (hc0 : 0 < a.z) (hc2 : a.z ≤ 2 * Real.pi) :
    ToEulerAngles (FromEulerAngles a) =
      ⟨a.x - Real.pi, Real.pi - a.y, a.z - Real.pi⟩ := by
  obtain ⟨ax, ay, az⟩ := a
  exact eulerRoundTrip_flip ha0 ha2 hb1 hb2 hc0 hc2

/-- Witness for claim C2 at the Euler triple (1.5, 2.3, 0.6) of the test
source. -/
theorem claim_C2_wit :
    (0 : ℝ) < 1.5 ∧ (1.5 : ℝ) ≤ 2 * Real.pi ∧ Real.pi / 2 < 2.3 ∧
    (2.3 : ℝ) < 3 * Real.pi / 2 ∧ (0 : ℝ) < 0.6 ∧ (0.6 : ℝ) ≤ 2 * Real.pi ∧
    ToEulerAngles (FromEulerAngles ⟨1.5, 2.3, 0.6⟩) =
      ⟨1.5 - Real.pi, Real.pi - 2.3, 0.6 - Real.pi⟩ :=
  ⟨by norm_num, by nlinarith [Real.pi_gt_three], by nlinarith [Real.pi_lt_d2],
   by nlinarith [Real.pi_gt_three], by norm_num, by nlinarith [Real.pi_gt_three],
   claim_C2_thm ⟨1.5, 2.3, 0.6⟩ (by norm_num) (by nlinarith [Real.pi_gt_three])
     (by nlinarith [Real.pi_lt_d2]) (by nlinarith [Real.pi_gt_three])
     (by norm_num) (by nlinarith [Real.pi_gt_three])⟩

/-- Counterexample to claim C2 as stated: at the test input (1.5, 2.3, 0.6),
the middle recovered angle is pi - 2.3; it is neither reproduced exactly nor
offset by pi in either direction, so no "two axes offset by pi" convention
describes the round trip. -/
theorem claim_C2_cex :
    (ToEulerAngles (FromEulerAngles ⟨1.5, 2.3, 0.6⟩)).y ≠ 2.3 ∧
    (ToEulerAngles (FromEulerAngles ⟨1.5, 2.3, 0.6⟩)).y ≠ 2.3 - Real.pi ∧
    (ToEulerAngles (FromEulerAngles ⟨1.5, 2.3, 0.6⟩)).y ≠ 2.3 + Real.pi := by
  have h := eulerRoundTrip_flip (a := 1.5) (b := 2.3) (c := 0.6)
    (by norm_num) (by nlinarith [Real.pi_gt_three]) (by nlinarith [Real.pi_lt_d2])
    (by nlinarith [Real.pi_gt_three]) (by norm_num) (by nlinarith [Real.pi_gt_three])
  rw [h]
  refine ⟨?_, ?_, ?_⟩ <;> intro heq <;> simp only at heq <;>
    nlinarith [Real.pi_gt_three, Real.pi_lt_d2]

/-! ### Claim C10: the exact three-axis round-trip relation -/

/-- Claim C10 (amended): for Euler triples with middle angle in
(pi/2, 3*pi/2) and outer angles in (0, 2*pi] (the regime of the test input),
the round trip c satisfies exactly a.x = pi + c.x, a.y = pi - c.y,
a.z = pi + c.z: all three axes carry a pi term and the middle axis is
additionally sign-reflected.  For middle angles in (-pi/2, pi/2) the round
trip is exact and no pi terms appear. -/
theorem claim_C10_thm (a : Vec3) (ha0 : 0 < a.x) (ha2 : a.x ≤ 2 * Real.pi)
    (hb1 : Real.pi / 2 < a.y) (hb2 : a.y < 3 * Real.pi / 2)
    (hc0 : 0 < a.z) (hc2 : a.z ≤ 2 * Real.pi) :
    a.x = Real.pi + (ToEulerAngles (FromEulerAngles a)).x ∧
    a.y = Real.pi - (ToEulerAngles (FromEulerAngles a)).y ∧
    a.z = Real.pi + (ToEulerAngles (FromEulerAngles a)).z := by
  obtain ⟨ax, ay, az⟩ := a
  rw [eulerRoundTrip_flip ha0 ha2 hb1 hb2 hc0 hc2]
  refine ⟨by simp only; ring, by simp only; ring, by simp only; ring⟩

/-- Witness for claim C10 at the Euler triple (1.5, 2.3, 0.6) of the test
source. -/
theorem claim_C10_wit :
    (0 : ℝ) < 1.5 ∧ (1.5 : ℝ) ≤ 2 * Real.pi ∧ Real.pi / 2 < 2.3 ∧
    (2.3 : ℝ) < 3 * Real.pi / 2 ∧ (0 : ℝ) < 0.6 ∧ (0.6 : ℝ) ≤ 2 * Real.pi ∧
    ((1.5 : ℝ) = Real.pi + (ToEulerAngles (FromEulerAngles ⟨1.5, 2.3, 0.6⟩)).x ∧
     (2.3 : ℝ) = Real.pi - (ToEulerAngles (FromEulerAngles ⟨1.5, 2.3, 0.6⟩)).y ∧
     (0.6 : ℝ) = Real.pi + (ToEulerAngles (FromEulerAngles ⟨1.5, 2.3, 0.6⟩)).z) :=
  ⟨by norm_num, by nlinarith [Real.pi_gt_three], by nlinarith [Real.pi_lt_d2],
   by nlinarith [Real.pi_gt_three], by norm_num, by nlinarith [Real.pi_gt_three],
   claim_C10_thm ⟨1.5, 2.3, 0.6⟩ (by norm_num) (by nlinarith [Real.pi_gt_three])
     (by nlinarith [Real.pi_lt_d2]) (by nlinarith [Real.pi_gt_three])
     (by norm_num) (by nlinarith [Real.pi_gt_three])⟩

/-- Counterexample to claim C10 as stated: at the non-singular triple
(0.1, 0.2, 0.3) the round trip is exact, so the three-axis pi relation
fails. -/
theorem claim_C10_cex :
    ¬ ((0.1 : ℝ) = Real.pi + (ToEulerAngles (FromEulerAngles ⟨0.1, 0.2, 0.3⟩)).x ∧
       (0.2 : ℝ) = Real.pi - (ToEulerAngles (FromEulerAngles ⟨0.1, 0.2, 0.3⟩)).y ∧
       (0.3 : ℝ) = Real.pi + (ToEulerAngles (FromEulerAngles ⟨0.1, 0.2, 0.3⟩)).z) := by
  have h := eulerRoundTrip_exact (a := 0.1) (b := 0.2) (c := 0.3)
    (by nlinarith [Real.pi_gt_three]) (by nlinarith [Real.pi_gt_three])
    (by nlinarith [Real.pi_gt_three]) (by nlinarith [Real.pi_gt_three])
    (by nlinarith [Real.pi_gt_three]) (by nlinarith [Real.pi_gt_three])
  rw [h]
  rintro ⟨h1, -, -⟩
  simp only at h1
  nlinarith [Real.pi_gt_three]

/-! ### Claim C4: matrix round trip -/

/-- `ToMatrix` is even: a quaternion and its negation produce the same
rotation matrix (double cover). -/
theorem toMatrix_neg (q : Quat) : ToMatrix (negQ q) = ToMatrix q := by
  simp only [ToMatrix, negQ, Mat3.mk.injEq]
  refine ⟨by ring, by ring, by ring, by ring, by ring, by ring, by ring, by ring,
    by ring⟩

/-- For a unit quaternion, the trace/pivot extraction recovers the quaternion
up to the double-cover sign: the trace-positive branch pivots on w, the other
three branches pivot on the largest of x, y, z, and in every branch the pivot
is bounded away from zero. -/
theorem fromMatrix_toMatrix {q : Quat} (h : normSq q = 1) :
    FromMatrix (ToMatrix q) = q ∨ FromMatrix (ToMatrix q) = negQ q := by
  obtain ⟨x, y, z, w⟩ := q
  have hn : x ^ 2 + y ^ 2 + z ^ 2 + w ^ 2 = 1 := by simpa [normSq] using h
  simp only [FromMatrix, ToMatrix, negQ]
  split_ifs with h1 h2 h3
  · -- trace-positive branch: the pivot is w
    have harg : 1 - 2 * (y ^ 2 + z ^ 2) + (1 - 2 * (x ^ 2 + z ^ 2)) +
        (1 - 2 * (x ^ 2 + y ^ 2)) + 1 = (2 * w) ^ 2 := by
      linear_combination (-4) * hn
    have hw2 : 1 / 4 < w ^ 2 := by nlinarith [h1, hn]
    have hw0 : w ≠ 0 := by
      intro h0
      rw [h0] at hw2
      norm_num at hw2
    rw [harg, Real.sqrt_sq_eq_abs]
    rcases hw0.lt_or_lt with hw | hw
    · rw [abs_of_neg (by linarith : 2 * w < 0)]
      right
      simp only [Quat.mk.injEq]
      refine ⟨?_, ?_, ?_, ?_⟩ <;> field_simp <;> ring
    · rw [abs_of_pos (by linarith : 0 < 2 * w)]
      left
      simp only [Quat.mk.injEq]
      refine ⟨?_, ?_, ?_, ?_⟩ <;> field_simp <;> ring
  · -- pivot-x branch
    have harg : 1 + (1 - 2 * (y ^ 2 + z ^ 2)) - (1 - 2 * (x ^ 2 + z ^ 2)) -
        (1 - 2 * (x ^ 2 + y ^ 2)) = (2 * x) ^ 2 := by ring
    have h1x : 1 - 2 * (y ^ 2 + z ^ 2) + (1 - 2 * (x ^ 2 + z ^ 2)) +
        (1 - 2 * (x ^ 2 + y ^ 2)) ≤ 0 := not_lt.mp h1
    have hx2 : 1 / 4 < x ^ 2 := by
      obtain ⟨h2a, h2b⟩ := h2
      nlinarith [h2a, h2b, h1x, hn]
    have hx0 : x ≠ 0 := by
      intro h0
      rw [h0] at hx2
      norm_num at hx2
    rw [harg, Real.sqrt_sq_eq_abs]
    rcases hx0.lt_or_lt with hx | hx
    · rw [abs_of_neg (by linarith : 2 * x < 0)]
      right
      simp only [Quat.mk.injEq]
      refine ⟨?_, ?_, ?_, ?_⟩ <;> field_simp <;> ring
    · rw [abs_of_pos (by linarith : 0 < 2 * x)]
      left
      simp only [Quat.mk.injEq]
      refine ⟨?_, ?_, ?_, ?_⟩ <;> field_simp <;> ring
  · -- pivot-y branch
    have harg : 1 + (1 - 2 * (x ^ 2 + z ^ 2)) - (1 - 2 * (y ^ 2 + z ^ 2)) -
        (1 - 2 * (x ^ 2 + y ^ 2)) = (2 * y) ^ 2 := by ring
    have h1x : 1 - 2 * (y ^ 2 + z ^ 2) + (1 - 2 * (x ^ 2 + z ^ 2)) +
        (1 - 2 * (x ^ 2 + y ^ 2)) ≤ 0 := not_lt.mp h1
    have hA : x ^ 2 ≤ y ^ 2 ∨ x ^ 2 ≤ z ^ 2 := by
      by_contra hcon
      push_neg at hcon
      exact h2 ⟨by linarith [hcon.1], by linarith [hcon.2]⟩
    have hzy : z ^ 2 < y ^ 2 := by linarith [h3]
    have hy2 : 1 / 4 < y ^ 2 := by
      rcases hA with hA | hA <;> linarith
    have hy0 : y ≠ 0 := by
      intro h0
      rw [h0] at hy2
      norm_num at hy2
    rw [harg, Real.sqrt_sq_eq_abs]
    rcases hy0.lt_or_lt with hy | hy
    · rw [abs_of_neg (by linarith : 2 * y < 0)]
      right
      simp only [Quat.mk.injEq]
      refine ⟨?_, ?_, ?_, ?_⟩ <;> field_simp <;> ring
    · rw [abs_of_pos (by linarith : 0 < 2 * y)]
      left
      simp only [Quat.mk.injEq]
      refine ⟨?_, ?_, ?_, ?_⟩ <;> field_simp <;> ring
  · -- pivot-z branch
    have harg : 1 + (1 - 2 * (x ^ 2 + y ^ 2)) - (1 - 2 * (y ^ 2 + z ^ 2)) -
        (1 - 2 * (x ^ 2 + z ^ 2)) = (2 * z) ^ 2 := by ring
    have h1x : 1 - 2 * (y ^ 2 + z ^ 2) + (1 - 2 * (x ^ 2 + z ^ 2)) +
        (1 - 2 * (x ^ 2 + y ^ 2)) ≤ 0 := not_lt.mp h1
    have hA : x ^ 2 ≤ y ^ 2 ∨ x ^ 2 ≤ z ^ 2 := by
      by_contra hcon
      push_neg at hcon
      exact h2 ⟨by linarith [hcon.1], by linarith [hcon.2]⟩
    have hyz : y ^ 2 ≤ z ^ 2 := by linarith [not_lt.mp h3]
    have hz2 : 1 / 4 ≤ z ^ 2 := by
      rcases hA with hA | hA <;> linarith
    have hz0 : z ≠ 0 := by
      intro h0
      rw [h0] at hz2
      norm_num at hz2
    rw [harg, Real.sqrt_sq_eq_abs]
    rcases hz0.lt_or_lt with hz | hz
    · rw [abs_of_neg (by linarith : 2 * z < 0)]
      right
      simp only [Quat.mk.injEq]
      refine ⟨?_, ?_, ?_, ?_⟩ <;> field_simp <;> ring
    · rw [abs_of_pos (by linarith : 0 < 2 * z)]
      left
      simp only [Quat.mk.injEq]
      refine ⟨?_, ?_, ?_, ?_⟩ <;> field_simp <;> ring

/-- Round trip through the extraction: the matrix of the extracted quaternion
is the original matrix, for every unit quaternion. -/
theorem toMatrix_fromMatrix_toMatrix {q : Quat} (h : normSq q = 1) :
    ToMatrix (FromMatrix (ToMatrix q)) = ToMatrix q := by
  rcases fromMatrix_toMatrix h with heq | heq
  · rw [heq]
  · rw [heq, toMatrix_neg]

/-- Claim C4: for every 3x3 rotation matrix built by composing the
single-axis x, y and z rotations of the test source,
`ToMatrix(FromMatrix(m))` reproduces the matrix exactly (all nine
entries). -/
theorem claim_C4_thm (a0 a1 a2 : ℝ) :
    ToMatrix (FromMatrix (composedRotation a0 a1 a2)) = composedRotation a0 a1 a2 := by
  have hm := toMatrix_fromEulerAngles ⟨a0, a1, a2⟩
  simp only at hm
  rw [← hm, toMatrix_fromMatrix_toMatrix (normSq_fromEulerAngles ⟨a0, a1, a2⟩)]

/-! ### Claim C1: the Slerp contract -/

/-- Normalizing a unit quaternion is the identity. -/
theorem normalize_unit {q : Quat} (h : normSq q = 1) : Normalize q = q := by
  obtain ⟨qx, qy, qz, qw⟩ := q
  simp only [Normalize, h, Real.sqrt_one, div_one]

/-- Sum-to-product identity for sines. -/
theorem sin_add_sin (p q : ℝ) :
    Real.sin p + Real.sin q =
      2 * Real.sin ((p + q) / 2) * Real.cos ((p - q) / 2) := by
  have h1 := Real.sin_add ((p + q) / 2) ((p - q) / 2)
  have h2 := Real.sin_sub ((p + q) / 2) ((p - q) / 2)
  rw [show (p + q) / 2 + (p - q) / 2 = p from by ring] at h1
  rw [show (p + q) / 2 - (p - q) / 2 = q from by ring] at h2
  linear_combination h1 + h2

/-- Sum-to-product identity for cosines. -/
theorem cos_add_cos (p q : ℝ) :
    Real.cos p + Real.cos q =
      2 * Real.cos ((p + q) / 2) * Real.cos ((p - q) / 2) := by
  have h1 := Real.cos_add ((p + q) / 2) ((p - q) / 2)
  have h2 := Real.cos_sub ((p + q) / 2) ((p - q) / 2)
  rw [show (p + q) / 2 + (p - q) / 2 = p from by ring] at h1
  rw [show (p + q) / 2 - (p - q) / 2 = q from by ring] at h2
  linear_combination h1 + h2

/-- The sine of the interpolation angle is non-zero away from the degenerate
branch. -/
theorem sin_arccos_ne {d : ℝ} (h0 : 0 ≤ d) (h1 : d < 1) :
    Real.sin (Real.arccos d) ≠ 0 := by
  have hpos : 0 < Real.arccos d := Real.arccos_pos.mpr h1
  have hle : Real.arccos d ≤ Real.pi / 2 := Real.arccos_le_pi_div_two.mpr h0
  exact (Real.sin_pos_of_pos_of_lt_pi hpos (by linarith [Real.pi_pos])).ne'

/-- Slerp at t = 0 returns the first operand, for a unit first operand. -/
theorem slerp_zero {q1 q2 : Quat} (h1 : normSq q1 = 1) : Slerp q1 q2 0 = q1 := by
  by_cases hd : qdot q1 q2 < 0
  · by_cases hone : 1 ≤ -qdot q1 q2
    · simp only [Slerp, if_pos hd, if_pos hone]
      have e : (⟨(1 - (0 : ℝ)) * q1.x + 0 * (negQ q2).x,
          (1 - (0 : ℝ)) * q1.y + 0 * (negQ q2).y,
          (1 - (0 : ℝ)) * q1.z + 0 * (negQ q2).z,
          (1 - (0 : ℝ)) * q1.w + 0 * (negQ q2).w⟩ : Quat) = q1 := by
        obtain ⟨x1, y1, z1, w1⟩ := q1
        simp only [Quat.mk.injEq]
        norm_num
      rw [e, normalize_unit h1]
    · simp only [Slerp, if_pos hd, if_neg hone]
      have hne : Real.sin (Real.arccos (-qdot q1 q2)) ≠ 0 :=
        sin_arccos_ne (by linarith) (by linarith [not_le.mp hone])
      rw [show (1 - (0 : ℝ)) * Real.arccos (-qdot q1 q2) =
          Real.arccos (-qdot q1 q2) from by ring,
        show (0 : ℝ) * Real.arccos (-qdot q1 q2) = 0 from by ring, Real.sin_zero]
      obtain ⟨x1, y1, z1, w1⟩ := q1
      simp only [Quat.mk.injEq]
      refine ⟨?_, ?_, ?_, ?_⟩ <;>
        rw [zero_mul, add_zero, mul_div_cancel_left₀ _ hne]
  · by_cases hone : 1 ≤ qdot q1 q2
    · simp only [Slerp, if_neg hd, if_pos hone]
      have e : (⟨(1 - (0 : ℝ)) * q1.x + 0 * q2.x, (1 - (0 : ℝ)) * q1.y + 0 * q2.y,
          (1 - (0 : ℝ)) * q1.z + 0 * q2.z,
          (1 - (0 : ℝ)) * q1.w + 0 * q2.w⟩ : Quat) = q1 := by
        obtain ⟨x1, y1, z1, w1⟩ := q1
        simp only [Quat.mk.injEq]
        norm_num
      rw [e, normalize_unit h1]
    · simp only [Slerp, if_neg hd, if_neg hone]
      have hne : Real.sin (Real.arccos (qdot q1 q2)) ≠ 0 :=
        sin_arccos_ne (not_lt.mp hd) (not_le.mp hone)
      rw [show (1 - (0 : ℝ)) * Real.arccos (qdot q1 q2) =
          Real.arccos (qdot q1 q2) from by ring,
        show (0 : ℝ) * Real.arccos (qdot q1 q2) = 0 from by ring, Real.sin_zero]
      obtain ⟨x1, y1, z1, w1⟩ := q1
      simp only [Quat.mk.injEq]
      refine ⟨?_, ?_, ?_, ?_⟩ <;>
        rw [zero_mul, add_zero, mul_div_cancel_left₀ _ hne]

/-- Slerp at t = 1 returns the second operand, for a unit second operand,
provided the operands are not flipped (non-negative dot product). -/
theorem slerp_one {q1 q2 : Quat} (h2 : normSq q2 = 1) (hd : 0 ≤ qdot q1 q2) :
    Slerp q1 q2 1 = q2 := by
  have hd' : ¬qdot q1 q2 < 0 := not_lt.mpr hd
  by_cases hone : 1 ≤ qdot q1 q2
  · simp only [Slerp, if_neg hd', if_pos hone]
    have e : (⟨(1 - (1 : ℝ)) * q1.x + 1 * q2.x, (1 - (1 : ℝ)) * q1.y + 1 * q2.y,
        (1 - (1 : ℝ)) * q1.z + 1 * q2.z,
        (1 - (1 : ℝ)) * q1.w + 1 * q2.w⟩ : Quat) = q2 := by
      obtain ⟨x2, y2, z2, w2⟩ := q2
      simp only [Quat.mk.injEq]
      norm_num
    rw [e, normalize_unit h2]
  · simp only [Slerp, if_neg hd', if_neg hone]
    have hne : Real.sin (Real.arccos (qdot q1 q2)) ≠ 0 :=
      sin_arccos_ne hd (not_le.mp hone)
    rw [show (1 - (1 : ℝ)) * Real.arccos (qdot q1 q2) = 0 from by ring,
      show (1 : ℝ) * Real.arccos (qdot q1 q2) =
        Real.arccos (qdot q1 q2) from by ring, Real.sin_zero]
    obtain ⟨x2, y2, z2, w2⟩ := q2
    simp only [Quat.mk.injEq]
    refine ⟨?_, ?_, ?_, ?_⟩ <;>
      rw [zero_mul, zero_add, mul_div_cancel_left₀ _ hne]

/-- Slerp between a unit quaternion and itself is that quaternion, for every
interpolation parameter (degenerate linear-interpolation branch). -/
theorem slerp_self {q : Quat} (h : normSq q = 1) (t : ℝ) : Slerp q q t = q := by
  have hd : qdot q q = 1 := by
    simp only [qdot]
    rw [← h]
    simp only [normSq]
    ring
  have hd' : ¬qdot q q < 0 := by
    rw [hd]
    norm_num
  have hone : 1 ≤ qdot q q := by rw [hd]
  simp only [Slerp, if_neg hd', if_pos hone]
  have e : (⟨(1 - t) * q.x + t * q.x, (1 - t) * q.y + t * q.y,
      (1 - t) * q.z + t * q.z, (1 - t) * q.w + t * q.w⟩ : Quat) = q := by
    obtain ⟨qx, qy, qz, qw⟩ := q
    simp only [Quat.mk.injEq]
    refine ⟨by ring, by ring, by ring, by ring⟩
  rw [e, normalize_unit h]

/-- Slerp at the midpoint of two same-axis rotations is the rotation at the
average angle, for angles in (0, pi). -/
theorem slerp_fromAngleAxis_half {u : Vec3} (hu : vnormSq u = 1) {a b : ℝ}
    (ha0 : 0 < a) (ha : a < Real.pi) (hb0 : 0 < b) (hb : b < Real.pi) :
    Slerp (FromAngleAxis a u) (FromAngleAxis b u) (1 / 2) =
      FromAngleAxis ((a + b) / 2) u := by
  have hpi := Real.pi_pos
  have hsum : u.x ^ 2 + u.y ^ 2 + u.z ^ 2 = 1 := by
    simpa [vnormSq, vdot, sq] using hu
  have hd : qdot (FromAngleAxis a u) (FromAngleAxis b u) =
      Real.cos ((a - b) / 2) := by
    simp only [qdot, FromAngleAxis]
    rw [show (a - b) / 2 = a / 2 - b / 2 from by ring, Real.cos_sub]
    linear_combination (Real.sin (a / 2) * Real.sin (b / 2)) * hsum
  have hdpos : 0 < Real.cos ((a - b) / 2) :=
    Real.cos_pos_of_mem_Ioo ⟨by linarith, by linarith⟩
  have hd' : ¬qdot (FromAngleAxis a u) (FromAngleAxis b u) < 0 := by
    rw [hd]
    exact not_lt.mpr hdpos.le
  by_cases hone : 1 ≤ qdot (FromAngleAxis a u) (FromAngleAxis b u)
  · -- degenerate branch: the two quaternions coincide
    have hcos1 : Real.cos ((a - b) / 2) = 1 := by
      rw [← hd]
      exact le_antisymm (by rw [hd]; exact Real.cos_le_one _) hone
    have hab : a = b := by
      have h0 := (Real.cos_eq_one_iff_of_lt_of_lt (x := (a - b) / 2)
        (by linarith) (by linarith)).mp hcos1
      linarith
    subst hab
    simp only [Slerp, if_neg hd', if_pos hone]
    have e : (⟨(1 - (1 : ℝ) / 2) * (FromAngleAxis a u).x +
        1 / 2 * (FromAngleAxis a u).x,
        (1 - (1 : ℝ) / 2) * (FromAngleAxis a u).y + 1 / 2 * (FromAngleAxis a u).y,
        (1 - (1 : ℝ) / 2) * (FromAngleAxis a u).z + 1 / 2 * (FromAngleAxis a u).z,
        (1 - (1 : ℝ) / 2) * (FromAngleAxis a u).w + 1 / 2 * (FromAngleAxis a u).w⟩ :
          Quat) = FromAngleAxis a u := by
      simp only [FromAngleAxis, Quat.mk.injEq]
      refine ⟨by ring, by ring, by ring, by ring⟩
    rw [e, normalize_unit (normSq_fromAngleAxis hu a),
      show (a + a) / 2 = a from by ring]
  · -- closed-form branch
    have hlt1 : Real.cos ((a - b) / 2) < 1 := by
      rw [← hd]
      exact not_le.mp hone
    have hd2 : ¬Real.cos ((a - b) / 2) < 0 := not_lt.mpr hdpos.le
    have hone2 : ¬(1 : ℝ) ≤ Real.cos ((a - b) / 2) := by
      rw [← hd]
      exact hone
    simp only [Slerp, hd, if_neg hd2, if_neg hone2]
    have hApos : 0 < Real.arccos (Real.cos ((a - b) / 2)) :=
      Real.arccos_pos.mpr hlt1
    have hAle : Real.arccos (Real.cos ((a - b) / 2)) ≤ Real.pi :=
      Real.arccos_le_pi _
    have hcosA : Real.cos (Real.arccos (Real.cos ((a - b) / 2))) =
        Real.cos ((a - b) / 2) :=
      Real.cos_arccos (Real.neg_one_le_cos _) (Real.cos_le_one _)
    have hsinA2pos : 0 < Real.sin (Real.arccos (Real.cos ((a - b) / 2)) / 2) :=
      Real.sin_pos_of_pos_of_lt_pi (by linarith) (by linarith)
    have hcoshalf : Real.cos (Real.arccos (Real.cos ((a - b) / 2)) / 2) =
        Real.cos ((a - b) / 4) := by
      have hA := Real.cos_half (x := Real.arccos (Real.cos ((a - b) / 2)))
        (by linarith) hAle
      have hB := Real.cos_half (x := (a - b) / 2) (by linarith) (by linarith)
      rw [hA, hcosA, ← hB, show (a - b) / 2 / 2 = (a - b) / 4 from by ring]
    have hcos4pos : 0 < Real.cos ((a - b) / 4) :=
      Real.cos_pos_of_mem_Ioo ⟨by linarith, by linarith⟩
    have hsinA : Real.sin (Real.arccos (Real.cos ((a - b) / 2))) =
        2 * Real.sin (Real.arccos (Real.cos ((a - b) / 2)) / 2) *
          Real.cos ((a - b) / 4) := by
      have h2m := Real.sin_two_mul (Real.arccos (Real.cos ((a - b) / 2)) / 2)
      rw [show 2 * (Real.arccos (Real.cos ((a - b) / 2)) / 2) =
          Real.arccos (Real.cos ((a - b) / 2)) from by ring] at h2m
      rw [h2m, hcoshalf]
    have hden : 2 * Real.sin (Real.arccos (Real.cos ((a - b) / 2)) / 2) *
        Real.cos ((a - b) / 4) ≠ 0 :=
      (mul_pos (mul_pos two_pos hsinA2pos) hcos4pos).ne'
    have hsx : Real.sin (a / 2) + Real.sin (b / 2) =
        2 * Real.sin ((a + b) / 4) * Real.cos ((a - b) / 4) := by
      have h0 := sin_add_sin (a / 2) (b / 2)
      rw [show (a / 2 + b / 2) / 2 = (a + b) / 4 from by ring,
        show (a / 2 - b / 2) / 2 = (a - b) / 4 from by ring] at h0
      exact h0
    have hcx : Real.cos (a / 2) + Real.cos (b / 2) =
        2 * Real.cos ((a + b) / 4) * Real.cos ((a - b) / 4) := by
      have h0 := cos_add_cos (a / 2) (b / 2)
      rw [show (a / 2 + b / 2) / 2 = (a + b) / 4 from by ring,
        show (a / 2 - b / 2) / 2 = (a - b) / 4 from by ring] at h0
      exact h0
    simp only [FromAngleAxis, Quat.mk.injEq]
    rw [show (1 - (1 : ℝ) / 2) * Real.arccos (Real.cos ((a - b) / 2)) =
        Real.arccos (Real.cos ((a - b) / 2)) / 2 from by ring,
      show (1 : ℝ) / 2 * Real.arccos (Real.cos ((a - b) / 2)) =
        Real.arccos (Real.cos ((a - b) / 2)) / 2 from by ring,
      hsinA, show (a + b) / 2 / 2 = (a + b) / 4 from by ring]
    refine ⟨?_, ?_, ?_, ?_⟩
    · rw [div_eq_iff hden]
      linear_combination (u.x * Real.sin (Real.arccos (Real.cos ((a - b) / 2)) / 2)) * hsx
    · rw [div_eq_iff hden]
      linear_combination (u.y * Real.sin (Real.arccos (Real.cos ((a - b) / 2)) / 2)) * hsx
    · rw [div_eq_iff hden]
      linear_combination (u.z * Real.sin (Real.arccos (Real.cos ((a - b) / 2)) / 2)) * hsx
    · rw [div_eq_iff hden]
      linear_combination (Real.sin (Real.arccos (Real.cos ((a - b) / 2)) / 2)) * hcx

/-- Claim C1 (amended): for unit quaternions, Slerp satisfies the contract
with two qualifications forced by the shorter-arc flip and the principal
angle range: Slerp(q1, q2, 0) = q1; Slerp(q1, q2, 1) = q2 whenever the dot
product of the operands is non-negative (otherwise the flip returns -q2, the
same rotation); Slerp(q, q, t) = q for all t; and for two quaternions built
from the same unit axis at angles a, b in (0, pi), the midpoint decomposes to
the angle (a+b)/2 on that axis. -/
theorem claim_C1_thm (q1 q2 q : Quat) (t : ℝ) (u : Vec3) (a b : ℝ)
    (h1 : normSq q1 = 1) (h2 : normSq q2 = 1) (hq : normSq q = 1)
    (hu : vnormSq u = 1) (ha0 : 0 < a) (ha : a < Real.pi)
    (hb0 : 0 < b) (hb : b < Real.pi) :
    Slerp q1 q2 0 = q1 ∧
    (0 ≤ qdot q1 q2 → Slerp q1 q2 1 = q2) ∧
    Slerp q q t = q ∧
    ToAngleAxis (Slerp (FromAngleAxis a u) (FromAngleAxis b u) (1 / 2)) =
      ((a + b) / 2, u) :=
  ⟨slerp_zero h1, fun hd => slerp_one h2 hd, slerp_self hq t, by
    rw [slerp_fromAngleAxis_half hu ha0 ha hb0 hb]
    exact toAngleAxis_fromAngleAxis hu (by linarith)
      (by linarith [Real.pi_pos])⟩

/-- Witness for claim C1 at the identity quaternions, axis (1,0,0) and
angles 1 and 2. -/
theorem claim_C1_wit :
    normSq ⟨0, 0, 0, 1⟩ = 1 ∧ vnormSq ⟨1, 0, 0⟩ = 1 ∧ (0 : ℝ) < 1 ∧
    (1 : ℝ) < Real.pi ∧ (0 : ℝ) < 2 ∧ (2 : ℝ) < Real.pi ∧
    (Slerp ⟨0, 0, 0, 1⟩ ⟨0, 0, 0, 1⟩ 0 = ⟨0, 0, 0, 1⟩ ∧
     (0 ≤ qdot ⟨0, 0, 0, 1⟩ ⟨0, 0, 0, 1⟩ →
       Slerp ⟨0, 0, 0, 1⟩ ⟨0, 0, 0, 1⟩ 1 = ⟨0, 0, 0, 1⟩) ∧
     Slerp ⟨0, 0, 0, 1⟩ ⟨0, 0, 0, 1⟩ (3 : ℝ) = ⟨0, 0, 0, 1⟩ ∧
     ToAngleAxis (Slerp (FromAngleAxis 1 ⟨1, 0, 0⟩) (FromAngleAxis 2 ⟨1, 0, 0⟩)
       (1 / 2)) = ((1 + 2) / 2, ⟨1, 0, 0⟩)) :=
  ⟨by norm_num [normSq], by norm_num [vnormSq, vdot], by norm_num,
   by linarith [Real.pi_gt_three], by norm_num, by linarith [Real.pi_gt_three],
   claim_C1_thm ⟨0, 0, 0, 1⟩ ⟨0, 0, 0, 1⟩ ⟨0, 0, 0, 1⟩ 3 ⟨1, 0, 0⟩ 1 2
     (by norm_num [normSq]) (by norm_num [normSq]) (by norm_num [normSq])
     (by norm_num [vnormSq, vdot]) (by norm_num) (by linarith [Real.pi_gt_three])
     (by norm_num) (by linarith [Real.pi_gt_three])⟩

/-- Counterexample to claim C1 as stated: for the antipodal unit pair
q1 = (0,0,0,1), q2 = (0,0,0,-1), the shorter-arc flip makes
Slerp(q1, q2, 1) return -q2 = (0,0,0,1), not q2. -/
theorem claim_C1_cex :
    normSq ⟨0, 0, 0, 1⟩ = 1 ∧ normSq ⟨0, 0, 0, -1⟩ = 1 ∧
    Slerp ⟨0, 0, 0, 1⟩ ⟨0, 0, 0, -1⟩ 1 ≠ ⟨0, 0, 0, -1⟩ := by
  refine ⟨by norm_num [normSq], by norm_num [normSq], ?_⟩
  have hd : qdot (⟨0, 0, 0, 1⟩ : Quat) ⟨0, 0, 0, -1⟩ = -1 := by
    norm_num [qdot]
  simp only [Slerp, hd, negQ, Normalize, normSq]
  norm_num [Quat.mk.injEq, Real.sqrt_one]

end Mathfu
